/-
Verification of the COEP optimization library against its specification.

This file gives a shallow embedding, in Lean 4, of the parts of the
library that the specification's claims are about:

* the grid-search optimizer (coep/optimizers/grid_search.py),
* the SPSA optimizer (coep/optimizers/spsa.py),
* the three batch managers (coep/managers/singlethread.py,
  coep/managers/dask.py, coep/managers/producer.py), and
* the objective-function orchestrator (coep/objective_funcs.py).

Modelling conventions:

* Python floats are modelled as rationals (ℚ).  The two transcendental
  operations the source uses — the float power operator and the square
  root inside the Euclidean norm — are supplied as parameters of the
  embedding (fields of an environment structure), because the claims
  under consideration concern the control structure and the exact
  arguments fed to these operations, not their numerics.
* Nondeterminism of the execution environment (random perturbation
  draws, worker scheduling, cluster task outcomes) is modelled by
  explicit oracle functions supplied as inputs.
* Python exceptions are modelled with Except; a while-loop whose
  termination depends on the environment is modelled with explicit
  fuel, returning none when the fuel is exhausted (so a run that
  returns none for every fuel is a non-terminating run).
-/
import Mathlib

namespace Coep

open scoped List

/-! ## Grid search (coep/optimizers/grid_search.py)

The source initializes `best_res = None` and then tests
`res is not None and res < best_res`.  In Python 3 the comparison
`res < None` raises a TypeError as soon as `res` is an actual number
(under the legacy Python 2 / old-numpy ordering the comparison is
instead always False, so `best_res` never updates and the returned
vector is None).  Both behaviours are captured below: the embedding
follows Python 3 and raises; the legacy variant is what the comment
on the claim theorem describes. -/

/-- Python-level errors that the embedded fragments can raise. -/
inductive PyErr where
  /-- TypeError from comparing a number with None. -/
  | typeError : PyErr
  deriving DecidableEq, Repr

/-- The shape of the OptimizeResult that grid_search builds. -/
structure GridResult (α : Type) where
  x : Option α
  fval : Option ℚ
  nfev : ℕ
  success : Bool
  deriving DecidableEq, Repr

/-- The loop of grid_search: walk the candidate list keeping
(best_res, best_pars, nfev).  The candidate's objective value is
`Option ℚ` because the source tests `res is not None`.  The test
`res < best_res` with `best_res = None` raises TypeError. -/
def gridSearchGo (func : α → Option ℚ) :
    List α → Option ℚ → Option α → ℕ →
    Except PyErr (Option α × Option ℚ × ℕ)
  | [], best_res, best_pars, nfev => .ok (best_pars, best_res, nfev)
  | ix :: rest, best_res, best_pars, nfev =>
    match func ix with
    | none => gridSearchGo func rest best_res best_pars (nfev + 1)
    | some v =>
      match best_res with
      | none => .error .typeError
      | some b =>
        if v < b then
          gridSearchGo func rest (some v) (some ix) (nfev + 1)
        else
          gridSearchGo func rest best_res best_pars (nfev + 1)

/-- Embedding of grid_search: run the loop from
`best_res = None, best_pars = None, nfev = 0` and package the result. -/
def grid_search (func : α → Option ℚ) (x0 : List α) :
    Except PyErr (GridResult α) :=
  match gridSearchGo func x0 none none 0 with
  | .error e => .error e
  | .ok (best_pars, best_res, nfev) =>
    .ok { x := best_pars, fval := best_res, nfev := nfev, success := true }

/-! ## SPSA (coep/optimizers/spsa.py) -/

/-- Sum of squares of a rational vector; the Euclidean norm of the
vector is the real square root of this quantity. -/
def sumSq (v : List ℚ) : ℚ :=
  (v.map (fun x => x * x)).sum

/-- Elementwise addition (numpy vector +). -/
def vadd (a b : List ℚ) : List ℚ := List.zipWith (· + ·) a b

/-- Elementwise subtraction (numpy vector -). -/
def vsub (a b : List ℚ) : List ℚ := List.zipWith (· - ·) a b

/-- Scalar multiple of a vector. -/
def smul (c : ℚ) (v : List ℚ) : List ℚ := v.map (fun x => c * x)

/-- Elementwise clip of a vector to optional (lo, hi) bounds rows,
modelling numpy.clip(v, bounds[:, 0], bounds[:, 1]). -/
def clipVec (bounds : Option (List (ℚ × ℚ))) (v : List ℚ) : List ℚ :=
  match bounds with
  | none => v
  | some bs => List.zipWith (fun x b => max b.1 (min x b.2)) v bs

/-- Static configuration of one SPSA call (the keyword arguments). -/
structure SPSACfg where
  a_par : ℚ
  c_par : ℚ
  alpha : ℚ
  gamma : ℚ
  xtol : ℚ
  A : Option ℚ
  maxiter : ℕ
  bounds : Option (List (ℚ × ℚ))
  maxgrad : Option ℚ

/-- Environment of one SPSA call: the float power operation, the
square root used by the Euclidean norm, the stream of random
perturbation draws (indexed by iteration), and the objective. -/
structure SPSAEnv where
  powQ : ℚ → ℚ → ℚ
  sqrtQ : ℚ → ℚ
  delta : ℕ → List ℚ
  func : List ℚ → ℚ

/-- Mutable state of the SPSA loop.  gainLog is ghost instrumentation:
it records the (ak, ck) pair each executed iteration used, so that
theorems can speak about "the gains used at iteration k". -/
structure SPSAState where
  theta : List ℚ
  saved_theta : List ℚ
  n_iter : ℕ
  n_fev : ℕ
  gainLog : List (ℚ × ℚ)
  deriving Repr

/-- The checkpoint record {n_fev, n_iter, saved_theta, theta}. -/
structure SavedRec where
  n_fev : ℕ
  n_iter : ℕ
  saved_theta : List ℚ
  theta : List ℚ

/-- Resolution of the A parameter: the source sets A = maxiter / 10
when the caller passed None. -/
def spsaResolveA (cfg : SPSACfg) : ℚ :=
  match cfg.A with
  | some a => a
  | none => (cfg.maxiter : ℚ) / 10

/-- ak = a_par / (n_iter + 1 + A)**alpha, as assigned in the loop. -/
def spsaAk (env : SPSAEnv) (cfg : SPSACfg) (n_iter : ℕ) : ℚ :=
  cfg.a_par / env.powQ ((n_iter : ℚ) + 1 + spsaResolveA cfg) cfg.alpha

/-- ck = c_par / (n_iter + 1)**gamma, as assigned in the loop. -/
def spsaCk (env : SPSAEnv) (cfg : SPSACfg) (n_iter : ℕ) : ℚ :=
  cfg.c_par / env.powQ ((n_iter : ℚ) + 1) cfg.gamma

/-- The Euclidean norm as the source computes it, with the square
root supplied by the environment. -/
def normQ (env : SPSAEnv) (v : List ℚ) : ℚ :=
  env.sqrtQ (sumSq v)

/-- theta_diff = norm(saved_theta - theta) / norm(saved_theta). -/
def spsaThetaDiff (env : SPSAEnv) (st : SPSAState) : ℚ :=
  normQ env (vsub st.saved_theta st.theta) / normQ env st.saved_theta

/-- One iteration of the SPSA while-loop body. -/
def spsaStep (env : SPSAEnv) (cfg : SPSACfg) (st : SPSAState) : SPSAState :=
  let ak := spsaAk env cfg st.n_iter
  let ck := spsaCk env cfg st.n_iter
  let delta := env.delta st.n_iter
  let theta_plus := clipVec cfg.bounds (vadd st.theta (smul ck delta))
  let theta_minus := clipVec cfg.bounds (vsub st.theta (smul ck delta))
  let y_plus := env.func theta_plus
  let y_minus := env.func theta_minus
  let y_diff := y_plus - y_minus
  let grad_size := |y_diff|
  let y_diff2 :=
    match cfg.maxgrad with
    | some m => if m < grad_size then y_diff * (m / grad_size) else y_diff
    | none => y_diff
  let g_hat := delta.map (fun di => y_diff2 / (2 * ck * di))
  let theta2 := clipVec cfg.bounds (vsub st.theta (smul ak g_hat))
  { theta := theta2
    saved_theta := st.theta
    n_iter := st.n_iter + 1
    n_fev := st.n_fev + 2
    gainLog := st.gainLog ++ [(ak, ck)] }

/-- The while-loop: continue while theta_diff > xtol and
n_iter < maxiter.  Fuel bounds the number of executed iterations;
callers pass maxiter - n_iter, which is exact because the loop
condition itself enforces n_iter < maxiter. -/
def spsaLoop (env : SPSAEnv) (cfg : SPSACfg) : ℕ → SPSAState → SPSAState
  | 0, st => st
  | f + 1, st =>
    if cfg.xtol < spsaThetaDiff env st ∧ st.n_iter < cfg.maxiter then
      spsaLoop env cfg f (spsaStep env cfg st)
    else
      st

/-- Initial state: either reloaded from a checkpoint record, or fresh
from x0 with n_fev = 0, n_iter = start_iter, and saved_theta seeded to
ones * 10 when x0 is the all-zero vector and to theta * 100 otherwise. -/
def spsaInitState (x0 : List ℚ) (saved : Option SavedRec)
    (start_iter : ℕ) : SPSAState :=
  match saved with
  | some s =>
    { theta := s.theta
      saved_theta := s.saved_theta
      n_iter := s.n_iter
      n_fev := s.n_fev
      gainLog := [] }
  | none =>
    { theta := x0
      saved_theta :=
        if x0.all (fun x => x = 0) then
          List.replicate x0.length 10
        else
          x0.map (fun x => x * 100)
      n_iter := start_iter
      n_fev := 0
      gainLog := [] }

/-- Termination messages of SPSA. -/
inductive SPSAMsg where
  | tolReached : SPSAMsg
  | maxIterExceeded : SPSAMsg
  | shouldNotBeHere : SPSAMsg
  deriving DecidableEq, Repr

/-- The OptimizeResult that SPSA builds (gainLog is carried along as
ghost instrumentation). -/
structure SPSAResult where
  x : List ℚ
  fval : ℚ
  nit : ℕ
  nfev : ℕ
  success : Bool
  message : SPSAMsg
  gainLog : List (ℚ × ℚ)

/-- Full SPSA call: initialize (from a checkpoint if one is given),
run the loop, then evaluate the objective once more at the final theta
(the final call to loss, which increments n_fev). -/
def spsaRun (env : SPSAEnv) (cfg : SPSACfg) (x0 : List ℚ)
    (saved : Option SavedRec) (start_iter : ℕ) : SPSAResult :=
  let st0 := spsaInitState x0 saved start_iter
  let stF := spsaLoop env cfg (cfg.maxiter - st0.n_iter) st0
  let msg :=
    if spsaThetaDiff env stF ≤ cfg.xtol then SPSAMsg.tolReached
    else if cfg.maxiter ≤ stF.n_iter then SPSAMsg.maxIterExceeded
    else SPSAMsg.shouldNotBeHere
  { x := stF.theta
    fval := env.func stF.theta
    nit := stF.n_iter
    nfev := stF.n_fev + 1
    success := true
    message := msg
    gainLog := stF.gainLog }

/-! ## Batch managers (coep/managers/) -/

/-- Failures that abort a whole run_batch call. -/
inductive BatchErr (E : Type) where
  /-- The AssertionError raised when run_batch is called on a shut
  down manager. -/
  | shutdown : BatchErr E
  /-- A per-item error re-raised under hard_error=True. -/
  | raised : E → BatchErr E
  /-- The dask TimeoutError re-raised for a pending future under
  hard_error=True. -/
  | timeout : BatchErr E
  deriving DecidableEq, Repr

/-! ### SingleThreadManager (coep/managers/singlethread.py)

run_batch iterates `for i, p in enumerate(params)` over the caller's
list; on a soft error with retry_failures it appends the failing item
back onto that same list, so the iteration also visits the appended
copies.  The worklist below is that list; the index i advances over
it; a failing item is appended at the end.  The user function either
returns an Exception object (the isinstance check in the source) or a
value; its behaviour may differ between attempts, so it is modelled
as an oracle taking the item and the number of earlier evaluations of
that item. -/

/-- Number of earlier evaluations of item p: the occurrences of p in
the first i positions of the worklist, each of which was evaluated
exactly once. -/
def countBefore [DecidableEq α] (wl : List α) (i : ℕ) (p : α) : ℕ :=
  ((wl.take i).filter (fun q => decide (q = p))).length

/-- The enumerate loop of SingleThreadManager.run_batch.  Returns
none when the fuel runs out, i.e. a run that is none for every fuel
is a non-terminating run. -/
def stRunAux [DecidableEq α] (evalO : α → ℕ → E ⊕ ℚ)
    (hard retry : Bool) :
    ℕ → List α → ℕ → List (α × ℚ) → Option (Except (BatchErr E) (List (α × ℚ)))
  | 0, _, _, _ => none
  | f + 1, wl, i, ret =>
    if h : i < wl.length then
      let p := wl.get ⟨i, h⟩
      match evalO p (countBefore wl i p) with
      | .inr res => stRunAux evalO hard retry f wl (i + 1) (ret ++ [(p, res)])
      | .inl e =>
        if hard then some (.error (.raised e))
        else if retry then stRunAux evalO hard retry f (wl ++ [p]) (i + 1) ret
        else stRunAux evalO hard retry f wl (i + 1) ret
    else
      some (.ok ret)

/-- SingleThreadManager.run_batch.  The source has the comment
"Check that we haven't shut down" but, unlike the other two managers,
no assert on the _runnable flag follows it, so the runnable argument
is accepted and ignored. -/
def stRunBatch [DecidableEq α] (runnable : Bool) (evalO : α → ℕ → E ⊕ ℚ)
    (hard retry : Bool) (fuel : ℕ) (params : List α) :
    Option (Except (BatchErr E) (List (α × ℚ))) :=
  stRunAux evalO hard retry fuel params 0 []

/-! ### DaskManager (coep/managers/dask.py) -/

/-- Outcome of one submitted future at one round of the wait loop:
the future finished and its result is a value, the future finished
and its result is an Exception object, the future errored (the task
raised), or the future is still pending after the timeout. -/
inductive DOut (R E : Type) where
  | ok : R → DOut R E
  | excv : E → DOut R E
  | errored : E → DOut R E
  | pending : DOut R E
  deriving DecidableEq, Repr

/-- Does this outcome raise under hard_error=True?  All three failure
shapes do: a finished Exception result is re-raised, an errored
future's exception is re-raised, a pending future raises TimeoutError. -/
def daskBad (o : DOut R E) : Bool :=
  match o with
  | .ok _ => false
  | .excv _ => true
  | .errored _ => true
  | .pending => true

/-- The exception that outcome o raises under hard_error=True. -/
def daskRaise (o : DOut R E) : BatchErr E :=
  match o with
  | .ok _ => .timeout
  | .excv e => .raised e
  | .errored e => .raised e
  | .pending => .timeout

/-- Does this outcome set the running flag (trigger another round)?
Only an errored or pending future does; a finished future whose
result value is an Exception object does not. -/
def daskRetryable (o : DOut R E) : Bool :=
  match o with
  | .ok _ => false
  | .excv _ => false
  | .errored _ => true
  | .pending => true

/-- Did the future finish with a proper value? -/
def daskIsOk (o : DOut R E) : Bool :=
  match o with
  | .ok _ => true
  | _ => false

/-- The (item, value) pairs appended to ret in one round: every
submitted item whose future finished with a proper value, in
submission order. -/
def daskOkPairs (omega : P → ℕ → DOut R E) (t : ℕ) (submitted : List P) :
    List (P × R) :=
  submitted.filterMap (fun p =>
    match omega p t with
    | .ok r => some (p, r)
    | _ => none)

/-- Modelled from the spec: find_missing_params, imported by
coep/managers/dask.py from coep/helpers.py but absent from that file
in this repository.  The spec describes it as "the set difference
(submitted items − items already resolved, by value equality, not by
position)": keep every submitted item that is not value-equal to some
already-resolved item. -/
def findMissingParams [DecidableEq P] (params uparams : List P) : List P :=
  params.filter (fun p => decide (p ∉ uparams))

/-- The wait/classify/resubmit loop of DaskManager.run_batch.
t counts rounds of the loop; the oracle gives the status of the
future for item p during round t.  In each round: under hard_error
the first failing future (in submission order) raises; otherwise all
finished value results are appended to ret, the running flag is set
iff some future errored or is pending and retry_failures is on, and
if running, the set difference of the original params against the
first components of ret is resubmitted. -/
def daskRunAux [DecidableEq P] (omega : P → ℕ → DOut R E)
    (hard retry : Bool) (params : List P) :
    ℕ → ℕ → List P → List (P × R) → Option (Except (BatchErr E) (List (P × R)))
  | 0, _, _, _ => none
  | f + 1, t, submitted, ret =>
    match submitted.find? (fun p => hard && daskBad (omega p t)) with
    | some p => some (.error (daskRaise (omega p t)))
    | none =>
      let ret2 := ret ++ daskOkPairs omega t submitted
      let running := (submitted.any (fun p => daskRetryable (omega p t))) && retry
      if running then
        daskRunAux omega hard retry params f (t + 1)
          (findMissingParams params (ret2.map Prod.fst)) ret2
      else
        some (.ok ret2)

/-- DaskManager.run_batch: the _runnable assertion, then the loop on
the initially submitted batch. -/
def daskRunBatch [DecidableEq P] (runnable : Bool) (omega : P → ℕ → DOut R E)
    (hard retry : Bool) (fuel : ℕ) (params : List P) :
    Option (Except (BatchErr E) (List (P × R))) :=
  if runnable then daskRunAux omega hard retry params fuel 0 params []
  else some (.error .shutdown)

/-! ### ProducerManager (coep/managers/producer.py)

run_batch enqueues the batch, then loops while the collected count is
below the batch size: drain the output queue completely (inner while
loop), then pop at most one entry from the error queue (a plain if),
then sleep.  The workers are the environment: outArr t and errArr t
are the entries they placed on the output and error queues between
wake t-1 and wake t. -/

/-- The inner `while not qout.empty(): rlist.append(qout.get())`:
pop entries off the output queue one at a time, appending each as a
(params, result) pair, until the queue is empty.  Returns the new
rlist together with the queue left behind. -/
def drainOutQ : List (P × R) → List (P × Option R) →
    List (P × Option R) × List (P × R)
  | [], rl => (rl, [])
  | x :: rest, rl => drainOutQ rest (rl ++ [(x.1, some x.2)])

/-- State left for the next wake: the collected rlist and the part of
the error queue that was not consumed. -/
structure PWState (P R E : Type) where
  rl : List (P × Option R)
  qerr : List (P × E)
  deriving Repr

/-- One wake of the dispatcher: fully drain the output queue, then
look at the error queue; if it is non-empty pop exactly one entry,
raising it under hard_error and recording (item, None) otherwise. -/
def producerWake (hard : Bool) (qoutNow : List (P × R))
    (qerrNow : List (P × E)) (rl : List (P × Option R)) :
    Except (BatchErr E) (PWState P R E) :=
  let drained := drainOutQ qoutNow rl
  match qerrNow with
  | [] => .ok { rl := drained.1, qerr := [] }
  | e :: rest =>
    if hard then .error (.raised e.2)
    else .ok { rl := drained.1 ++ [(e.1, none)], qerr := rest }

/-- The collection loop of ProducerManager.run_batch: while the
result count is below the batch size n, run one wake (with whatever
the workers delivered since the last one) and continue. -/
def producerRunAux (hard : Bool) (outArr : ℕ → List (P × R))
    (errArr : ℕ → List (P × E)) (n : ℕ) :
    ℕ → ℕ → List (P × Option R) → List (P × E) →
    Option (Except (BatchErr E) (List (P × Option R)))
  | 0, _, _, _ => none
  | f + 1, t, rl, qe =>
    if n ≤ rl.length then some (.ok rl)
    else
      match producerWake hard (outArr t) (qe ++ errArr t) rl with
      | .error e => some (.error e)
      | .ok s => producerRunAux hard outArr errArr n f (t + 1) s.rl s.qerr

/-- ProducerManager.run_batch: the _runnable assertion, then the
collection loop starting from an empty rlist and error queue. -/
def producerRunBatch (runnable hard : Bool) (outArr : ℕ → List (P × R))
    (errArr : ℕ → List (P × E)) (n : ℕ) (fuel : ℕ) :
    Option (Except (BatchErr E) (List (P × Option R))) :=
  if runnable then producerRunAux hard outArr errArr n fuel 0 [] []
  else some (.error .shutdown)

/-! ## Objective orchestrator (coep/objective_funcs.py)

Python dicts are modelled as association lists with unique keys
maintained by dictSet (assignment replaces in place, new keys append,
matching dict insertion-order semantics). -/

/-- The keys of a dict, in order. -/
def dictKeys (d : List (K × V)) : List K := d.map Prod.fst

/-- d[k] = v: replace the value in place when k is present, append
the pair otherwise. -/
def dictSet [DecidableEq K] (d : List (K × V)) (k : K) (v : V) :
    List (K × V) :=
  if k ∈ dictKeys d then
    d.map (fun kv => if kv.1 = k then (k, v) else kv)
  else
    d ++ [(k, v)]

/-- d.update(u): assign every pair of u into d, in order. -/
def dictUpdate [DecidableEq K] (d u : List (K × V)) : List (K × V) :=
  u.foldl (fun acc kv => dictSet acc kv.1 kv.2) d

/-- dict(zip(pnames, fitting_params)). -/
def mkParameterSet [DecidableEq K] (pnames : List K) (fp : List V) :
    List (K × V) :=
  dictUpdate [] (List.zip pnames fp)

/-- Batch construction: for each instance, inst.copy() updated with
the bound fit parameters and then with the auxiliary process
parameters. -/
def mkBatch [DecidableEq K] (insts : List (List (K × V)))
    (pnames : List K) (fp : List V) (aux : List (K × V)) :
    List (List (K × V)) :=
  insts.map (fun inst =>
    dictUpdate (dictUpdate inst (mkParameterSet pnames fp)) aux)

/-- strip_names = self.pnames + list(self.aux_proc.keys()). -/
def stripNames (pnames : List K) (aux : List (K × V)) : List K :=
  pnames ++ dictKeys aux

/-- The cleanup loop: keep exactly the items whose key is not in
strip_names. -/
def dictStrip [DecidableEq K] (names : List K) (d : List (K × V)) :
    List (K × V) :=
  d.filter (fun kv => decide (kv.1 ∉ names))

/-- ObjectiveProcessor.process_all_data: check the parameter count,
optionally transform the fit parameters, build the batch, run it
through the manager (rb), and strip the fit and auxiliary keys from
every returned pair.  The manager is a parameter: any of the three
run_batch embeddings above, partially applied, fits. -/
def applyTransform (transform : Option (List V → List K → List V))
    (fp : List V) (pnames : List K) : List V :=
  match transform with
  | some f => f fp pnames
  | none => fp

def processAllData [DecidableEq K]
    (rb : List (List (K × V)) → List (List (K × V) × Option R))
    (pnames : List K) (transform : Option (List V → List K → List V))
    (fp : List V) (aux : List (K × V)) (insts : List (List (K × V))) :
    Except Unit (List (List (K × V) × Option R)) :=
  if fp.length = pnames.length then
    let processed := rb (mkBatch insts pnames (applyTransform transform fp pnames) aux)
    .ok (processed.map (fun pr =>
      (dictStrip (stripNames pnames aux) pr.1, pr.2)))
  else
    .error ()

/-! ## Derived descriptions used to state theorems -/

/-- Concatenation of an arrival stream over wakes t, t+1, ..., T-1. -/
def catFrom (g : ℕ → List β) (t T : ℕ) : List β :=
  (List.range' t (T - t)).flatMap g

/-- The list of successful evaluations the sequential backend
produces from position i on when retries are off: item and returned
value for every position whose evaluation succeeds, failures skipped.
Used to characterize the output of stRunAux with
retry_failures=False. -/
def stSucc [DecidableEq α] (evalO : α → ℕ → E ⊕ ℚ) (wl : List α) (i : ℕ) :
    List (α × ℚ) :=
  if h : i < wl.length then
    match evalO (wl.get ⟨i, h⟩) (countBefore wl i (wl.get ⟨i, h⟩)) with
    | .inr r => (wl.get ⟨i, h⟩, r) :: stSucc evalO wl (i + 1)
    | .inl _ => stSucc evalO wl (i + 1)
  else
    []
termination_by wl.length - i

/-- The gain-log invariant: entry i of the log records the gains
computed from the iteration counter value s + i. -/
def GoodLog (env : SPSAEnv) (cfg : SPSACfg) (s : ℕ) (st : SPSAState) : Prop :=
  st.n_iter = s + st.gainLog.length ∧
  ∀ i, i < st.gainLog.length →
    st.gainLog.getD i (0, 0) = (spsaAk env cfg (s + i), spsaCk env cfg (s + i))

/-- Invariant of the collection loop: what has been collected, what
is still parked on the error queue, and what the workers will deliver
at future wakes together make up the batch outcome (as a multiset). -/
def PInv (outArr : ℕ → List (P × R)) (errArr : ℕ → List (P × E)) (T : ℕ)
    (target : List (P × Option R)) (t : ℕ) (rl : List (P × Option R))
    (qe : List (P × E)) : Prop :=
  rl ++ (catFrom outArr t T).map (fun x => (x.1, some x.2)) ++
    (qe ++ catFrom errArr t T).map (fun x => (x.1, (none : Option R))) ~ target

/-! ## Concrete instances used by witness theorems -/

/-- A concrete SPSA environment: power and square root are stubbed
with simple total functions (their values are irrelevant to the
structural claims), the perturbation is constantly [1], the objective
is constantly 0. -/
def envW : SPSAEnv :=
  { powQ := fun _ _ => 1
    sqrtQ := fun x => x
    delta := fun _ => [1]
    func := fun _ => 0 }

/-- A concrete SPSA configuration with one iteration, default A, and
a tolerance of -1 so the loop condition is initially true. -/
def cfgW : SPSACfg :=
  { a_par := 1
    c_par := 1
    alpha := 1
    gamma := 1
    xtol := -1
    A := none
    maxiter := 1
    bounds := none
    maxgrad := none }

/-- A concrete distributed-backend outcome oracle: the single item
returns an Exception object as its result in round 0 and succeeds in
every later round. -/
def omegaCx : ℕ → ℕ → DOut ℕ Unit :=
  fun _ t => if t = 0 then .excv () else .ok 5

/-- A concrete distributed-backend outcome oracle: item 1 errors in
round 0 and everything succeeds from round 1 on. -/
def omegaW : ℕ → ℕ → DOut ℕ Unit :=
  fun p t => if p = 1 ∧ t = 0 then .errored () else .ok (p + 3)

/-- A concrete worker-pool output-arrival stream: item 0's result 10
arrives before the first wake. -/
def outArrW : ℕ → List (ℕ × ℕ) :=
  fun t => if t = 0 then [(0, 10)] else []

/-- A concrete worker-pool error-arrival stream: item 1's error
arrives before the first wake. -/
def errArrW : ℕ → List (ℕ × Unit) :=
  fun t => if t = 0 then [(1, ())] else []

/-! # Theorems -/

/-! ## Supporting lemmas -/

theorem sumSq_nonneg (v : List ℚ) : 0 ≤ sumSq v := by
  refine List.sum_nonneg ?_
  intro x hx
  rcases List.mem_map.mp hx with ⟨y, _, rfl⟩
  exact mul_self_nonneg y

theorem sumSq_pos_of_mem {v : List ℚ} {x : ℚ} (hx : x ∈ v) (hx0 : x ≠ 0) :
    0 < sumSq v := by
  have hle : x * x ≤ sumSq v := by
    refine List.single_le_sum ?_ _ (List.mem_map.mpr ⟨x, hx, rfl⟩)
    intro y hy
    rcases List.mem_map.mp hy with ⟨z, _, rfl⟩
    exact mul_self_nonneg z
  have hpos : 0 < x * x := mul_self_pos.mpr hx0
  linarith

/-- The nfev/nit accounting invariant of the SPSA loop: each executed
iteration performs exactly two loss evaluations. -/
theorem spsaLoop_fev (env : SPSAEnv) (cfg : SPSACfg) :
    ∀ (f : ℕ) (st : SPSAState),
      (spsaLoop env cfg f st).n_fev + 2 * st.n_iter =
        st.n_fev + 2 * (spsaLoop env cfg f st).n_iter := by
  intro f
  induction f with
  | zero => intro st; simp [spsaLoop]
  | succ f ih =>
    intro st
    rw [spsaLoop]
    split
    · have h := ih (spsaStep env cfg st)
      simp only [spsaStep] at h ⊢
      omega
    · rfl

theorem goodLog_step (env : SPSAEnv) (cfg : SPSACfg) (s : ℕ)
    (st : SPSAState) (h : GoodLog env cfg s st) :
    GoodLog env cfg s (spsaStep env cfg st) := by
  obtain ⟨hn, hlog⟩ := h
  constructor
  · simp only [spsaStep, List.length_append, List.length_cons, List.length_nil]
    omega
  · intro i hi
    simp only [spsaStep, List.length_append, List.length_cons,
      List.length_nil] at hi ⊢
    rcases Nat.lt_or_ge i st.gainLog.length with hlt | hge
    · rw [List.getD_append _ _ _ _ hlt]
      exact hlog i hlt
    · have hieq : i = st.gainLog.length := by omega
      subst hieq
      rw [List.getD_append_right _ _ _ _ hge]
      simp [hn]

theorem goodLog_loop (env : SPSAEnv) (cfg : SPSACfg) (s : ℕ) :
    ∀ (f : ℕ) (st : SPSAState), GoodLog env cfg s st →
      GoodLog env cfg s (spsaLoop env cfg f st) := by
  intro f
  induction f with
  | zero => intro st h; simpa [spsaLoop] using h
  | succ f ih =>
    intro st h
    rw [spsaLoop]
    split
    · exact ih _ (goodLog_step env cfg s st h)
    · exact h

/-- The gain log only grows while the loop runs. -/
theorem spsaLoop_len_mono (env : SPSAEnv) (cfg : SPSACfg) :
    ∀ (f : ℕ) (st : SPSAState),
      st.gainLog.length ≤ (spsaLoop env cfg f st).gainLog.length := by
  intro f
  induction f with
  | zero => intro st; simp [spsaLoop]
  | succ f ih =>
    intro st
    rw [spsaLoop]
    split
    · refine le_trans ?_ (ih (spsaStep env cfg st))
      simp [spsaStep]
    · exact le_rfl

/-- Non-termination invariant of the SingleThreadManager retry loop:
as long as the worklist has an unprocessed occurrence of an item whose
evaluation always fails, the loop (hard_error=False,
retry_failures=True) re-appends it forever and never finishes. -/
theorem stRunAux_stuck [DecidableEq α] (evalO : α → ℕ → E ⊕ ℚ) (p : α)
    (hfail : ∀ t, (evalO p t).isLeft) :
    ∀ (fuel : ℕ) (wl : List α) (i : ℕ) (ret : List (α × ℚ)),
      (∃ j, i ≤ j ∧ wl[j]? = some p) →
      stRunAux evalO false true fuel wl i ret = none := by
  intro fuel
  induction fuel with
  | zero => intro wl i ret _; rfl
  | succ f ih =>
    rintro wl i ret ⟨j, hij, hj⟩
    have hjlen : j < wl.length := by
      by_contra hge
      rw [List.getElem?_eq_none (by omega)] at hj
      exact Option.noConfusion hj
    have hi : i < wl.length := Nat.lt_of_le_of_lt hij hjlen
    rw [stRunAux]
    rw [dif_pos hi]
    by_cases hqp : wl.get ⟨i, hi⟩ = p
    · cases heval : evalO (wl.get ⟨i, hi⟩) (countBefore wl i (wl.get ⟨i, hi⟩)) with
      | inl e =>
        simp only [heval]
        apply ih
        refine ⟨wl.length, by omega, ?_⟩
        rw [List.getElem?_concat_length, hqp]
      | inr r =>
        exfalso
        rw [hqp] at heval
        have := hfail (countBefore wl i p)
        rw [heval] at this
        simp at this
    · have hji : i < j := by
        rcases Nat.lt_or_ge i j with h | h
        · exact h
        · exfalso
          have hieq : i = j := by omega
          subst hieq
          have hval : wl[i]? = some (wl.get ⟨i, hi⟩) := by
            simp [List.getElem?_eq_getElem hi, List.get_eq_getElem]
          exact hqp (Option.some.inj (hval.symm.trans hj))
      cases heval : evalO (wl.get ⟨i, hi⟩) (countBefore wl i (wl.get ⟨i, hi⟩)) with
      | inl e =>
        simp only [heval]
        apply ih
        refine ⟨j, by omega, ?_⟩
        rw [List.getElem?_append_left hjlen]
        exact hj
      | inr r =>
        simp only [heval]
        exact ih wl (i + 1) (ret ++ [(wl.get ⟨i, hi⟩, r)]) ⟨j, by omega, hj⟩

/-! ### Lemmas about the distributed-cluster retry loop -/

theorem daskOkPairs_fst (omega : P → ℕ → DOut R E) (t : ℕ) :
    ∀ l : List P, (daskOkPairs omega t l).map Prod.fst =
      l.filter (fun p => daskIsOk (omega p t)) := by
  intro l
  induction l with
  | nil => rfl
  | cons a l ih =>
    simp only [daskOkPairs, List.filterMap_cons, List.filter_cons] at ih ⊢
    cases h : omega a t <;> simp [h, daskIsOk, ih]

theorem filter_or_perm (l : List α) (p q : α → Bool) :
    l.filter (fun x => p x || q x) ~
      l.filter p ++ l.filter (fun x => !p x && q x) := by
  induction l with
  | nil => simp
  | cons a l ih =>
    simp only [List.filter_cons]
    cases hp : p a
    · cases hq : q a
      · simpa [hp, hq] using ih
      · simp only [hp, hq, Bool.false_or, Bool.not_false, Bool.true_and,
          if_pos rfl]
        exact (ih.cons a).trans List.perm_middle.symm
    · simp only [hp, Bool.true_or, Bool.not_true, Bool.false_and,
        if_pos rfl, if_neg Bool.false_ne_true, List.cons_append]
      exact ih.cons a

/-- Preservation of the resolved-set invariant across one retry
round: after appending this round's successes, the resolved items are
still, as a multiset, exactly the original params restricted to
resolved values. -/
theorem daskResolved_perm [DecidableEq P] (omega : P → ℕ → DOut R E)
    (params submitted : List P) (ret : List (P × R)) (t : ℕ)
    (hsub : submitted = findMissingParams params (ret.map Prod.fst))
    (hperm : ret.map Prod.fst ~
      params.filter (fun p => decide (p ∈ ret.map Prod.fst))) :
    (ret ++ daskOkPairs omega t submitted).map Prod.fst ~
      params.filter (fun p =>
        decide (p ∈ (ret ++ daskOkPairs omega t submitted).map Prod.fst)) := by
  have hS : (daskOkPairs omega t submitted).map Prod.fst =
      submitted.filter (fun p => daskIsOk (omega p t)) := daskOkPairs_fst omega t submitted
  rw [List.map_append, hS]
  have hpred : params.filter (fun p =>
      decide (p ∈ ret.map Prod.fst ++
        submitted.filter (fun x => daskIsOk (omega x t)))) =
      params.filter (fun p => decide (p ∈ ret.map Prod.fst) ||
        decide (p ∈ submitted.filter (fun x => daskIsOk (omega x t)))) := by
    apply List.filter_congr
    intro a _
    by_cases h1 : a ∈ ret.map Prod.fst <;>
      by_cases h2 : a ∈ submitted.filter (fun x => daskIsOk (omega x t)) <;>
      simp [List.mem_append, h1, h2]
  rw [hpred]
  have hmid := filter_or_perm params
    (fun p => decide (p ∈ ret.map Prod.fst))
    (fun p => decide (p ∈ submitted.filter (fun x => daskIsOk (omega x t))))
  have hleft : params.filter (fun p =>
      !decide (p ∈ ret.map Prod.fst) &&
        decide (p ∈ submitted.filter (fun x => daskIsOk (omega x t)))) =
      submitted.filter (fun p => daskIsOk (omega p t)) := by
    have hcomm : params.filter (fun p =>
        !decide (p ∈ ret.map Prod.fst) &&
          decide (p ∈ submitted.filter (fun x => daskIsOk (omega x t)))) =
        params.filter (fun p =>
          decide (p ∈ submitted.filter (fun x => daskIsOk (omega x t))) &&
            !decide (p ∈ ret.map Prod.fst)) := by
      apply List.filter_congr
      intro a _
      exact Bool.and_comm _ _
    rw [hcomm, ← List.filter_filter]
    have h1 : params.filter (fun p => !decide (p ∈ ret.map Prod.fst)) = submitted := by
      rw [hsub]
      simp only [findMissingParams]
      apply List.filter_congr
      intro a _
      simp
    rw [h1]
    apply List.filter_congr
    intro a ha
    cases hb : daskIsOk (omega a t)
    · apply decide_eq_false
      intro hmem
      rw [List.mem_filter] at hmem
      rw [hmem.2] at hb
      exact Bool.noConfusion hb
    · exact decide_eq_true (List.mem_filter.mpr ⟨ha, hb⟩)
  refine (hperm.append (List.Perm.refl _)).trans ?_
  conv_lhs => rw [← hleft]
  exact hmid.symm

/-- With hard_error off, the hard-abort scan never finds anything. -/
theorem daskFind_none (omega : P → ℕ → DOut R E) (t : ℕ) (l : List P) :
    l.find? (fun p => false && daskBad (omega p t)) = none :=
  List.find?_eq_none.mpr (fun p _ => by simp)

/-- Splitting a list by a predicate is a permutation of the list. -/
theorem filter_not_filter_perm (l : List α) (p : α → Bool) :
    l.filter p ++ l.filter (fun x => !p x) ~ l := by
  have h := filter_or_perm l p (fun _ => true)
  simp only [Bool.or_true, Bool.and_true, List.filter_true] at h
  exact h.symm

/-- Completeness of the retry loop: if a run with
hard_error=False, retry_failures=True returns normally then, provided
no finished future carried an Exception value as its result, the
first components of the returned pairs are a permutation of the
submitted batch — one result per submitted item, none dropped, none
duplicated. -/
theorem daskRunAux_complete [DecidableEq P] (omega : P → ℕ → DOut R E)
    (params : List P)
    (hExc : ∀ p ∈ params, ∀ t, ∀ e : E, omega p t ≠ .excv e) :
    ∀ (f t : ℕ) (submitted : List P) (ret : List (P × R)),
      submitted = findMissingParams params (ret.map Prod.fst) →
      ret.map Prod.fst ~ params.filter (fun p => decide (p ∈ ret.map Prod.fst)) →
      ∀ l, daskRunAux omega false true params f t submitted ret = some (.ok l) →
        l.map Prod.fst ~ params := by
  intro f
  induction f with
  | zero =>
    intro t submitted ret _ _ l h
    exact absurd h (by simp [daskRunAux])
  | succ f ih =>
    intro t submitted ret hsub hperm l h
    rw [daskRunAux] at h
    simp only [daskFind_none, Bool.and_true] at h
    by_cases hany : (submitted.any fun p => daskRetryable (omega p t)) = true
    · rw [if_pos hany] at h
      exact ih (t + 1) _ _ rfl (daskResolved_perm omega params submitted ret t hsub hperm) l h
    · rw [if_neg hany] at h
      have hl : l = ret ++ daskOkPairs omega t submitted := by
        injection h with h2
        injection h2 with h3
        exact h3.symm
      subst hl
      have hall : ∀ p ∈ submitted, daskIsOk (omega p t) = true := by
        intro p hp
        have hmem : p ∈ params := by
          rw [hsub] at hp
          simp only [findMissingParams, List.mem_filter] at hp
          exact hp.1
        have hnr : ¬ daskRetryable (omega p t) = true := by
          intro hc
          exact hany (List.any_eq_true.mpr ⟨p, hp, hc⟩)
        cases ho : omega p t with
        | ok r => rfl
        | excv e => exact absurd ho (hExc p hmem t e)
        | errored e => exact absurd (by rw [ho]; rfl) hnr
        | pending => exact absurd (by rw [ho]; rfl) hnr
      rw [List.map_append, daskOkPairs_fst, List.filter_eq_self.mpr hall]
      have h1 : submitted =
          params.filter (fun p => !decide (p ∈ ret.map Prod.fst)) := by
        rw [hsub]
        simp only [findMissingParams]
        apply List.filter_congr
        intro a _
        simp
      calc ret.map Prod.fst ++ submitted
          ~ params.filter (fun p => decide (p ∈ ret.map Prod.fst)) ++
              params.filter (fun p => !decide (p ∈ ret.map Prod.fst)) := by
            rw [← h1]
            exact hperm.append (List.Perm.refl _)
        _ ~ params := filter_not_filter_perm params _

/-- Termination of the retry loop: once every item succeeds from
round T on, T+1 rounds of fuel are enough. -/
theorem daskRunAux_some [DecidableEq P] (omega : P → ℕ → DOut R E)
    (params : List P) (T : ℕ)
    (hSucc : ∀ p ∈ params, ∀ t, T ≤ t → ∃ r, omega p t = .ok r) :
    ∀ (f t : ℕ) (submitted : List P) (ret : List (P × R)),
      (∀ p ∈ submitted, p ∈ params) → T ≤ t + f →
      daskRunAux omega false true params (f + 1) t submitted ret ≠ none := by
  intro f
  induction f with
  | zero =>
    intro t submitted ret hss hT h
    rw [daskRunAux] at h
    simp only [daskFind_none, Bool.and_true] at h
    have hany : (submitted.any fun p => daskRetryable (omega p t)) = false := by
      cases hb : (submitted.any fun p => daskRetryable (omega p t)) with
      | false => rfl
      | true =>
        obtain ⟨p, hp, hr⟩ := List.any_eq_true.mp hb
        obtain ⟨r, hok⟩ := hSucc p (hss p hp) t (by omega)
        rw [hok] at hr
        exact Bool.noConfusion hr
    rw [hany] at h
    simp at h
  | succ f ih =>
    intro t submitted ret hss hT h
    rw [daskRunAux] at h
    simp only [daskFind_none, Bool.and_true] at h
    by_cases hany : (submitted.any fun p => daskRetryable (omega p t)) = true
    · rw [if_pos hany] at h
      refine ih (t + 1) _ _ ?_ (by omega) h
      intro p hp
      simp only [findMissingParams, List.mem_filter] at hp
      exact hp.1
    · rw [if_neg hany] at h
      simp at h

/-- With hard_error off the loop can never abort with an error. -/
theorem daskRunAux_no_raise [DecidableEq P] (omega : P → ℕ → DOut R E)
    (params : List P) (retry : Bool) :
    ∀ (f t : ℕ) (submitted : List P) (ret : List (P × R)) (e : BatchErr E),
      daskRunAux omega false retry params f t submitted ret ≠ some (.error e) := by
  intro f
  induction f with
  | zero =>
    intro t submitted ret e h
    simp [daskRunAux] at h
  | succ f ih =>
    intro t submitted ret e h
    rw [daskRunAux] at h
    simp only [daskFind_none] at h
    by_cases hany : ((submitted.any fun p => daskRetryable (omega p t)) && retry) = true
    · rw [if_pos hany] at h
      exact ih (t + 1) _ _ e h
    · rw [if_neg hany] at h
      simp at h

/-! ### Lemmas about the worker-pool collection loop -/

theorem catFrom_step (g : ℕ → List β) (t T : ℕ) (h : t < T) :
    catFrom g t T = g t ++ catFrom g (t + 1) T := by
  have hT : T - t = (T - (t + 1)) + 1 := by omega
  simp only [catFrom, hT, List.range'_succ, List.flatMap_cons]

theorem catFrom_stop (g : ℕ → List β) (t T : ℕ) (h : T ≤ t) :
    catFrom g t T = [] := by
  have hT : T - t = 0 := by omega
  simp [catFrom, hT]

/-- The step equation holds at every wake for a stream that is silent
from T on. -/
theorem catFrom_step_quiet (g : ℕ → List β) (t T : ℕ)
    (hq : T ≤ t → g t = []) :
    catFrom g t T = g t ++ catFrom g (t + 1) T := by
  rcases Nat.lt_or_ge t T with h | h
  · exact catFrom_step g t T h
  · rw [catFrom_stop g t T h, catFrom_stop g (t + 1) T (by omega), hq h]
    rfl

/-- The inner drain loop empties the output queue and appends every
entry, in order, as an (item, Some result) pair. -/
theorem drainOutQ_eq :
    ∀ (q : List (P × R)) (rl : List (P × Option R)),
      drainOutQ q rl = (rl ++ q.map (fun x => (x.1, some x.2)), []) := by
  intro q
  induction q with
  | nil => intro rl; simp [drainOutQ]
  | cons x rest ih =>
    intro rl
    rw [drainOutQ, ih]
    simp

theorem pwake_nil (hard : Bool) (qoutNow : List (P × R))
    (rl : List (P × Option R)) :
    producerWake (E := E) hard qoutNow [] rl =
      .ok { rl := rl ++ qoutNow.map (fun x => (x.1, some x.2)), qerr := [] } := by
  simp [producerWake, drainOutQ_eq]

theorem pwake_cons_soft (qoutNow : List (P × R)) (e : P × E)
    (rest : List (P × E)) (rl : List (P × Option R)) :
    producerWake false qoutNow (e :: rest) rl =
      .ok { rl := rl ++ qoutNow.map (fun x => (x.1, some x.2)) ++ [(e.1, none)],
            qerr := rest } := by
  simp [producerWake, drainOutQ_eq]

theorem pwake_cons_hard (qoutNow : List (P × R)) (e : P × E)
    (rest : List (P × E)) (rl : List (P × Option R)) :
    producerWake true qoutNow (e :: rest) rl = .error (.raised e.2) := by
  simp [producerWake]

/-- One soft-error wake preserves the invariant. -/
theorem pwake_inv (outArr : ℕ → List (P × R)) (errArr : ℕ → List (P × E))
    (T : ℕ) (target : List (P × Option R))
    (hquiet : ∀ u, T ≤ u → outArr u = [] ∧ errArr u = [])
    (t : ℕ) (rl : List (P × Option R)) (qe : List (P × E))
    (hinv : PInv outArr errArr T target t rl qe)
    (s : PWState P R E)
    (hw : producerWake false (outArr t) (qe ++ errArr t) rl = .ok s) :
    PInv outArr errArr T target (t + 1) s.rl s.qerr := by
  have hstepO := catFrom_step_quiet outArr t T (fun h => (hquiet t h).1)
  have hstepE := catFrom_step_quiet errArr t T (fun h => (hquiet t h).2)
  unfold PInv at hinv ⊢
  rw [hstepO, hstepE] at hinv
  cases hq : qe ++ errArr t with
  | nil =>
    rw [hq, pwake_nil] at hw
    injection hw with hw
    subst hw
    simp only [List.map_append, List.append_assoc, List.nil_append] at hinv ⊢
    have hqe : qe = [] := (List.append_eq_nil.mp hq).1
    have hB : errArr t = [] := (List.append_eq_nil.mp hq).2
    rw [hqe, hB] at hinv
    simpa using hinv
  | cons e rest =>
    rw [hq, pwake_cons_soft] at hw
    injection hw with hw
    subst hw
    have hsplit : qe ++ (errArr t ++ catFrom errArr (t + 1) T) =
        e :: (rest ++ catFrom errArr (t + 1) T) := by
      rw [← List.append_assoc, hq]
      rfl
    rw [hsplit] at hinv
    simp only [List.map_append, List.map_cons, List.append_assoc,
      List.nil_append] at hinv ⊢
    refine List.Perm.trans ?_ hinv
    refine List.Perm.append_left rl ?_
    refine List.Perm.append_left _ ?_
    simp only [List.singleton_append]
    exact List.perm_middle.symm

/-- Soundness of the collection loop: a normal return is a
permutation of the batch outcome (successes as (item, Some r),
failures as (item, None)) and has exactly batch-size many entries. -/
theorem producerRunAux_ok_perm (outArr : ℕ → List (P × R))
    (errArr : ℕ → List (P × E)) (T n : ℕ) (target : List (P × Option R))
    (htl : target.length = n)
    (hquiet : ∀ u, T ≤ u → outArr u = [] ∧ errArr u = []) :
    ∀ (f t : ℕ) (rl : List (P × Option R)) (qe : List (P × E))
      (l : List (P × Option R)),
      PInv outArr errArr T target t rl qe →
      producerRunAux false outArr errArr n f t rl qe = some (.ok l) →
      l ~ target ∧ l.length = n := by
  intro f
  induction f with
  | zero =>
    intro t rl qe l _ h
    exact absurd h (by simp [producerRunAux])
  | succ f ih =>
    intro t rl qe l hinv h
    rw [producerRunAux] at h
    by_cases hlen : n ≤ rl.length
    · rw [if_pos hlen] at h
      have hl : l = rl := by
        injection h with h2
        injection h2 with h3
        exact h3.symm
      subst hl
      have hlen2 := hinv.length_eq
      simp only [List.length_append] at hlen2
      rw [htl] at hlen2
      have hX : ((catFrom outArr t T).map
          (fun x => (x.1, some x.2))).length = 0 := by omega
      have hY : ((qe ++ catFrom errArr t T).map
          (fun x => (x.1, (none : Option R)))).length = 0 := by omega
      rw [List.length_eq_zero] at hX hY
      unfold PInv at hinv
      rw [hX, hY] at hinv
      simp only [List.append_nil] at hinv
      refine ⟨hinv, ?_⟩
      rw [hinv.length_eq, htl]
    · rw [if_neg hlen] at h
      cases hq : qe ++ errArr t with
      | nil =>
        have hw : producerWake false (outArr t) (qe ++ errArr t) rl =
            .ok { rl := rl ++ (outArr t).map (fun x => (x.1, some x.2)),
                  qerr := [] } := by
          rw [hq]
          exact pwake_nil false (outArr t) rl
        rw [hw] at h
        exact ih (t + 1) _ _ l
          (pwake_inv outArr errArr T target hquiet t rl qe hinv _ hw) h
      | cons e rest =>
        have hw : producerWake false (outArr t) (qe ++ errArr t) rl =
            .ok { rl := rl ++ (outArr t).map (fun x => (x.1, some x.2)) ++
                    [(e.1, none)],
                  qerr := rest } := by
          rw [hq]
          exact pwake_cons_soft (outArr t) e rest rl
        rw [hw] at h
        exact ih (t + 1) _ _ l
          (pwake_inv outArr errArr T target hquiet t rl qe hinv _ hw) h

/-- With hard_error off the collection loop never aborts. -/
theorem producerRunAux_no_raise (outArr : ℕ → List (P × R))
    (errArr : ℕ → List (P × E)) (n : ℕ) :
    ∀ (f t : ℕ) (rl : List (P × Option R)) (qe : List (P × E))
      (e : BatchErr E),
      producerRunAux false outArr errArr n f t rl qe ≠ some (.error e) := by
  intro f
  induction f with
  | zero =>
    intro t rl qe e h
    simp [producerRunAux] at h
  | succ f ih =>
    intro t rl qe e h
    rw [producerRunAux] at h
    by_cases hlen : n ≤ rl.length
    · rw [if_pos hlen] at h
      simp at h
    · rw [if_neg hlen] at h
      cases hq : qe ++ errArr t with
      | nil =>
        rw [hq, pwake_nil] at h
        exact ih (t + 1) _ _ e h
      | cons er rest =>
        rw [hq, pwake_cons_soft] at h
        exact ih (t + 1) _ _ e h

/-- Progress after all arrivals are in: every wake past T consumes
one parked error (or finishes), so n - |rl| extra wakes suffice. -/
theorem producerRunAux_some_at (outArr : ℕ → List (P × R))
    (errArr : ℕ → List (P × E)) (T n : ℕ) (target : List (P × Option R))
    (htl : target.length = n)
    (hquiet : ∀ u, T ≤ u → outArr u = [] ∧ errArr u = []) :
    ∀ (f t : ℕ) (rl : List (P × Option R)) (qe : List (P × E)),
      PInv outArr errArr T target t rl qe → T ≤ t → n ≤ rl.length + f →
      producerRunAux false outArr errArr n (f + 1) t rl qe ≠ none := by
  intro f
  induction f with
  | zero =>
    intro t rl qe _ _ hcnt h
    rw [producerRunAux, if_pos (by omega)] at h
    exact Option.noConfusion h
  | succ f ih =>
    intro t rl qe hinv hT hcnt h
    rw [producerRunAux] at h
    by_cases hlen : n ≤ rl.length
    · rw [if_pos hlen] at h
      exact Option.noConfusion h
    · rw [if_neg hlen] at h
      have hOt := (hquiet t hT).1
      have hEt := (hquiet t hT).2
      have hco := catFrom_stop outArr t T hT
      have hce := catFrom_stop errArr t T hT
      have hlens : rl.length + qe.length = n := by
        have := hinv.length_eq
        simp only [PInv, hco, hce, List.map_nil, List.append_nil,
          List.length_append, List.length_map, htl] at this
        omega
      cases hqe : qe with
      | nil =>
        rw [hqe] at hlens
        simp at hlens
        omega
      | cons e rest =>
        have hq : qe ++ errArr t = e :: rest := by
          rw [hqe, hEt, List.append_nil]
        have hw : producerWake false (outArr t) (qe ++ errArr t) rl =
            .ok { rl := rl ++ (outArr t).map (fun x => (x.1, some x.2)) ++
                    [(e.1, none)],
                  qerr := rest } := by
          rw [hq]
          exact pwake_cons_soft (outArr t) e rest rl
        rw [hw] at h
        refine ih (t + 1) _ _
          (pwake_inv outArr errArr T target hquiet t rl qe hinv _ hw)
          (by omega) ?_ h
        simp [hOt, List.length_append]
        omega

/-- Termination of the collection loop: with all arrivals in by wake
T, fuel T + n + 1 suffices. -/
theorem producerRunAux_some (outArr : ℕ → List (P × R))
    (errArr : ℕ → List (P × E)) (T n : ℕ) (target : List (P × Option R))
    (htl : target.length = n)
    (hquiet : ∀ u, T ≤ u → outArr u = [] ∧ errArr u = []) :
    ∀ (d t : ℕ) (rl : List (P × Option R)) (qe : List (P × E)),
      PInv outArr errArr T target t rl qe → t + d = T →
      producerRunAux false outArr errArr n (d + (n + 1)) t rl qe ≠ none := by
  intro d
  induction d with
  | zero =>
    intro t rl qe hinv hT
    have ht : T ≤ t := by omega
    simpa using producerRunAux_some_at outArr errArr T n target htl hquiet
      n t rl qe hinv ht (by omega)
  | succ d ih =>
    intro t rl qe hinv hT h
    have hfuel : (d + 1) + (n + 1) = (d + (n + 1)) + 1 := by omega
    rw [hfuel, producerRunAux] at h
    by_cases hlen : n ≤ rl.length
    · rw [if_pos hlen] at h
      exact Option.noConfusion h
    · rw [if_neg hlen] at h
      cases hq : qe ++ errArr t with
      | nil =>
        have hw : producerWake false (outArr t) (qe ++ errArr t) rl =
            .ok { rl := rl ++ (outArr t).map (fun x => (x.1, some x.2)),
                  qerr := [] } := by
          rw [hq]
          exact pwake_nil false (outArr t) rl
        rw [hw] at h
        exact ih (t + 1) _ _
          (pwake_inv outArr errArr T target hquiet t rl qe hinv _ hw)
          (by omega) h
      | cons e rest =>
        have hw : producerWake false (outArr t) (qe ++ errArr t) rl =
            .ok { rl := rl ++ (outArr t).map (fun x => (x.1, some x.2)) ++
                    [(e.1, none)],
                  qerr := rest } := by
          rw [hq]
          exact pwake_cons_soft (outArr t) e rest rl
        rw [hw] at h
        exact ih (t + 1) _ _
          (pwake_inv outArr errArr T target hquiet t rl qe hinv _ hw)
          (by omega) h

/-- With retries off, the sequential loop terminates in one pass and
returns exactly the successful evaluations. -/
theorem stRunAux_noretry [DecidableEq α] (evalO : α → ℕ → E ⊕ ℚ) :
    ∀ (f : ℕ) (wl : List α) (i : ℕ) (ret : List (α × ℚ)),
      wl.length - i ≤ f →
      stRunAux evalO false false (f + 1) wl i ret =
        some (.ok (ret ++ stSucc evalO wl i)) := by
  intro f
  induction f with
  | zero =>
    intro wl i ret hlen
    have hge : ¬ i < wl.length := by omega
    rw [stRunAux, dif_neg hge, stSucc, dif_neg hge, List.append_nil]
  | succ f ih =>
    intro wl i ret hlen
    by_cases h : i < wl.length
    · rw [stRunAux, dif_pos h, stSucc, dif_pos h]
      cases heval : evalO (wl.get ⟨i, h⟩) (countBefore wl i (wl.get ⟨i, h⟩)) with
      | inr r =>
        simp only [heval]
        rw [ih wl (i + 1) _ (by omega)]
        simp
      | inl e =>
        simp only [heval, Bool.false_eq_true, if_false]
        exact ih wl (i + 1) ret (by omega)
    · rw [stRunAux, dif_neg h, stSucc, dif_neg h, List.append_nil]

/-- Everything stSucc lists really is a successful evaluation. -/
theorem stSucc_mem [DecidableEq α] (evalO : α → ℕ → E ⊕ ℚ) (wl : List α) :
    ∀ (k i : ℕ), wl.length - i ≤ k → ∀ pr ∈ stSucc evalO wl i,
      ∃ a, evalO pr.1 a = .inr pr.2 := by
  intro k
  induction k with
  | zero =>
    intro i hk pr hpr
    rw [stSucc, dif_neg (by omega)] at hpr
    simp at hpr
  | succ k ih =>
    intro i hk pr hpr
    by_cases h : i < wl.length
    · rw [stSucc, dif_pos h] at hpr
      cases heval : evalO (wl.get ⟨i, h⟩) (countBefore wl i (wl.get ⟨i, h⟩)) with
      | inr r =>
        rw [heval] at hpr
        rcases List.mem_cons.mp hpr with hpr | hpr
        · refine ⟨countBefore wl i (wl.get ⟨i, h⟩), ?_⟩
          rw [hpr]
          exact heval
        · exact ih (i + 1) (by omega) pr hpr
      | inl e =>
        rw [heval] at hpr
        exact ih (i + 1) (by omega) pr hpr
    · rw [stSucc, dif_neg h] at hpr
      simp at hpr

/-- With retries off, the distributed loop performs exactly one
round and returns the successes of that round. -/
theorem daskRunAux_noretry [DecidableEq P] (omega : P → ℕ → DOut R E)
    (batch : List P) (f t : ℕ) (submitted : List P) (ret : List (P × R)) :
    daskRunAux omega false false batch (f + 1) t submitted ret =
      some (.ok (ret ++ daskOkPairs omega t submitted)) := by
  rw [daskRunAux]
  simp only [Bool.false_and, Bool.and_false]
  rw [List.find?_eq_none.mpr (fun p _ => by simp)]
  simp

/-- Everything daskOkPairs lists really finished with a value. -/
theorem daskOkPairs_mem (omega : P → ℕ → DOut R E) (t : ℕ) :
    ∀ (l : List P) (pr : P × R), pr ∈ daskOkPairs omega t l →
      omega pr.1 t = .ok pr.2 := by
  intro l
  induction l with
  | nil =>
    intro pr h
    simp [daskOkPairs] at h
  | cons a l ih =>
    intro pr h
    simp only [daskOkPairs, List.filterMap_cons] at h
    cases ho : omega a t with
    | ok r =>
      rw [ho] at h
      rcases List.mem_cons.mp h with h | h
      · rw [h]
        exact ho
      · exact ih pr h
    | excv e =>
      rw [ho] at h
      exact ih pr h
    | errored e =>
      rw [ho] at h
      exact ih pr h
    | pending =>
      rw [ho] at h
      exact ih pr h

/-! ## Claim theorems -/

/-- C1: the claim says grid_search returns the lowest-objective
candidate with nfev = number of candidates.  The code cannot: it
initializes best_res to None and tests `res < best_res` without
guarding the first comparison, so as soon as one candidate produces a
numeric objective the comparison number-vs-None raises TypeError
(Python 3; under the legacy Python 2 ordering the comparison is
always False, so best_pars stays None and the returned x is None —
either way the minimum is not returned).  This theorem evaluates the
embedded code on a one-candidate and a two-candidate list with the
identity objective: both runs abort with TypeError instead of
returning the minimising candidate. -/
theorem grid_search_C1_bug :
    grid_search (fun x : ℚ => some x) [(0 : ℚ)] = .error .typeError ∧
    grid_search (fun x : ℚ => some x) [(1 : ℚ), (0 : ℚ)] = .error .typeError :=
  ⟨rfl, rfl⟩

/-- C10: a fresh (non-resumed) SPSA run reports nfev = 2·nit + 1:
two loss evaluations inside each executed iteration plus the final
evaluation of the objective at the returned theta after the loop. -/
theorem spsa_C10_nfev (env : SPSAEnv) (cfg : SPSACfg) (x0 : List ℚ) :
    (spsaRun env cfg x0 none 0).nfev = 2 * (spsaRun env cfg x0 none 0).nit + 1 := by
  have h := spsaLoop_fev env cfg
    (cfg.maxiter - (spsaInitState x0 none 0).n_iter) (spsaInitState x0 none 0)
  have h0 : (spsaInitState x0 none 0).n_iter = 0 := rfl
  have h1 : (spsaInitState x0 none 0).n_fev = 0 := rfl
  simp only [spsaRun]
  omega

/-- C8 (amended): for every fresh start with a NON-EMPTY parameter
vector, the denominator of the first convergence metric — the
Euclidean norm of the seeded saved_theta, i.e. the real square root
of its sum of squares — is nonzero (indeed positive): an all-zero x0
is seeded to ones·10 and a nonzero x0 to x0·100.  (The restriction to
non-empty x0 is forced: see the counterexample.) -/
theorem spsa_C8_seed_pos (x0 : List ℚ) (h : 0 < x0.length) :
    0 < Real.sqrt ((sumSq (spsaInitState x0 none 0).saved_theta : ℚ) : ℝ) := by
  have hpos : 0 < sumSq (spsaInitState x0 none 0).saved_theta := by
    simp only [spsaInitState]
    split
    · rename_i hall
      refine sumSq_pos_of_mem (x := (10 : ℚ)) ?_ (by norm_num)
      exact List.mem_replicate.mpr ⟨by omega, rfl⟩
    · rename_i hall
      have : ∃ x ∈ x0, ¬(x = 0) := by
        by_contra hno
        push_neg at hno
        exact hall (List.all_eq_true.mpr (fun x hx => decide_eq_true (hno x hx)))
      obtain ⟨x, hx, hx0⟩ := this
      refine sumSq_pos_of_mem (x := x * 100) (List.mem_map.mpr ⟨x, hx, rfl⟩) ?_
      exact mul_ne_zero hx0 (by norm_num)
  have hr : (0 : ℝ) < ((sumSq (spsaInitState x0 none 0).saved_theta : ℚ) : ℝ) := by
    exact_mod_cast hpos
  exact Real.sqrt_pos.mpr hr

/-- C8 witness: instantiating the theorem at the all-zero singleton
vector. -/
theorem spsa_C8_seed_pos_witness :
    0 < [(0 : ℚ)].length ∧
    0 < Real.sqrt ((sumSq (spsaInitState [(0 : ℚ)] none 0).saved_theta : ℚ) : ℝ) :=
  ⟨by decide, spsa_C8_seed_pos [(0 : ℚ)] (by decide)⟩

/-- C8 counterexample: for the empty parameter vector — a fresh
start, and vacuously an all-zero x0 — the seeded saved_theta is the
empty vector, so the denominator of the first convergence metric is
exactly zero, refuting "for every fresh start, the denominator of the
first convergence metric is nonzero" as stated. -/
theorem spsa_C8_counterexample :
    Real.sqrt ((sumSq (spsaInitState ([] : List ℚ) none 0).saved_theta : ℚ) : ℝ) = 0 := by
  have h : sumSq (spsaInitState ([] : List ℚ) none 0).saved_theta = 0 := rfl
  rw [h]
  norm_num

/-- C7: in every run of SPSA where the caller does not supply A, the
gains used by the iteration with 0-based counter value k = s + i
(s the starting iteration, i the position in the run) are
ak = a_par / (k+1+A)^alpha and ck = c_par / (k+1)^gamma with
A = maxiter/10, the power operation being the environment's. -/
theorem spsa_C7_gains (env : SPSAEnv) (cfg : SPSACfg) (x0 : List ℚ) (s i : ℕ)
    (hA : cfg.A = none)
    (hi : i < (spsaRun env cfg x0 none s).gainLog.length) :
    (spsaRun env cfg x0 none s).gainLog.getD i (0, 0) =
      (cfg.a_par / env.powQ (((s + i : ℕ) : ℚ) + 1 + (cfg.maxiter : ℚ) / 10) cfg.alpha,
       cfg.c_par / env.powQ (((s + i : ℕ) : ℚ) + 1) cfg.gamma) := by
  have hg : GoodLog env cfg s
      (spsaLoop env cfg (cfg.maxiter - (spsaInitState x0 none s).n_iter)
        (spsaInitState x0 none s)) := by
    apply goodLog_loop
    constructor
    · simp [spsaInitState]
    · intro i hi
      simp [spsaInitState] at hi
  have hlog : (spsaRun env cfg x0 none s).gainLog =
      (spsaLoop env cfg (cfg.maxiter - (spsaInitState x0 none s).n_iter)
        (spsaInitState x0 none s)).gainLog := rfl
  rw [hlog] at hi ⊢
  rw [hg.2 i hi]
  simp [spsaAk, spsaCk, spsaResolveA, hA]

/-- The length hypothesis needed by the C7 witness: the concrete
one-iteration run has a non-empty gain log, shown via the loop-entry
condition rather than by raw evaluation. -/
theorem spsa_run_w_log_len :
    0 < (spsaRun envW cfgW [1] none 0).gainLog.length := by
  have hcond : cfgW.xtol < spsaThetaDiff envW (spsaInitState [1] none 0) ∧
      (spsaInitState [1] none 0).n_iter < cfgW.maxiter := by
    constructor
    · norm_num [spsaThetaDiff, normQ, envW, cfgW, sumSq, vsub,
        spsaInitState, List.all_cons, List.all_nil]
    · norm_num [spsaInitState, cfgW]
  have hfuel : cfgW.maxiter - (spsaInitState [1] none 0).n_iter = 1 := rfl
  have hrun : (spsaRun envW cfgW [1] none 0).gainLog =
      (spsaLoop envW cfgW (cfgW.maxiter - (spsaInitState [1] none 0).n_iter)
        (spsaInitState [1] none 0)).gainLog := rfl
  rw [hrun, hfuel, spsaLoop, if_pos hcond]
  have hstep : (spsaStep envW cfgW (spsaInitState [1] none 0)).gainLog.length = 1 := by
    simp [spsaStep, spsaInitState]
  calc 0 < (spsaStep envW cfgW (spsaInitState [1] none 0)).gainLog.length := by
        rw [hstep]; exact Nat.one_pos
    _ ≤ (spsaLoop envW cfgW 0 (spsaStep envW cfgW (spsaInitState [1] none 0))).gainLog.length :=
        spsaLoop_len_mono envW cfgW 0 _

/-- C7 witness: a one-iteration concrete run with A unset; its single
gain-log entry matches the spec formulas. -/
theorem spsa_C7_gains_witness :
    cfgW.A = none ∧
    0 < (spsaRun envW cfgW [1] none 0).gainLog.length ∧
    (spsaRun envW cfgW [1] none 0).gainLog.getD 0 (0, 0) =
      (cfgW.a_par / envW.powQ (((0 + 0 : ℕ) : ℚ) + 1 + (cfgW.maxiter : ℚ) / 10) cfgW.alpha,
       cfgW.c_par / envW.powQ (((0 + 0 : ℕ) : ℚ) + 1) cfgW.gamma) :=
  ⟨rfl, spsa_run_w_log_len, spsa_C7_gains envW cfgW [1] 0 0 rfl spsa_run_w_log_len⟩

/-- C9: for the sequential backend with hard_error=False and
retry_failures=True, each failing item is appended back onto the same
worklist the loop iterates over (the caller's params list, mutated in
place), so when some item's evaluation fails on every attempt,
run_batch never terminates: for every amount of fuel the loop is
still running. -/
theorem st_C9_nontermination [DecidableEq α] (evalO : α → ℕ → E ⊕ ℚ)
    (params : List α) (p : α) (hp : p ∈ params)
    (hfail : ∀ t, (evalO p t).isLeft) :
    ∀ fuel, stRunBatch true evalO false true fuel params = none := by
  intro fuel
  obtain ⟨j, hj⟩ := List.get_of_mem hp
  refine stRunAux_stuck evalO p hfail fuel params 0 [] ⟨j, Nat.zero_le _, ?_⟩
  simp [List.getElem?_eq_getElem j.isLt, ← hj, List.get_eq_getElem]

/-- C9 witness: a single always-failing item; with fuel 5 (or any
other amount) the run has not terminated. -/
theorem st_C9_nontermination_witness :
    stRunBatch true (fun (_ : ℕ) (_ : ℕ) => (Sum.inl () : Unit ⊕ ℚ))
      false true 5 [(0 : ℕ)] = none :=
  st_C9_nontermination (fun _ _ => Sum.inl ()) [0] 0 (by decide) (fun _ => rfl) 5

/-- C4: after shut_down, the distributed and worker-pool managers
assert _runnable and fail without evaluating anything, but
SingleThreadManager.run_batch has no such check (only the comment
announcing one), so on a closed handle it still evaluates every item
and returns results: the third conjunct evaluates the embedded code
on a shut-down handle and obtains a normal result. -/
theorem managers_C4_shutdown :
    (∀ (P R E : Type) (hard : Bool) (outArr : ℕ → List (P × R))
        (errArr : ℕ → List (P × E)) (n fuel : ℕ),
        producerRunBatch false hard outArr errArr n fuel =
          some (.error .shutdown)) ∧
    (∀ (P R E : Type) [DecidableEq P] (omega : P → ℕ → DOut R E)
        (hard retry : Bool) (fuel : ℕ) (params : List P),
        daskRunBatch false omega hard retry fuel params =
          some (.error .shutdown)) ∧
    stRunBatch false (fun (_ : ℕ) (_ : ℕ) => (Sum.inr (7 : ℚ) : Unit ⊕ ℚ))
      false false 2 [(0 : ℕ)] = some (.ok [((0 : ℕ), (7 : ℚ))]) := by
  refine ⟨fun P R E hard outArr errArr n fuel => rfl,
          fun P R E inst omega hard retry fuel params => rfl, rfl⟩

/-- C2 (amended): for the distributed backend with
retry_failures=True and hard_error=False, PROVIDED no failure takes
the shape of a finished future whose result value is an Exception
object: the run cannot abort, once every item succeeds from some
round T on the run finishes within T+1 rounds, any normal return
carries exactly one result per submitted item (the returned first
components are a permutation of the batch), and a resubmitted set —
the set difference of submitted minus resolved, by value equality —
never contains an already-resolved item. -/
theorem dask_C2_retry [DecidableEq P] (omega : P → ℕ → DOut R E)
    (params : List P) (T : ℕ)
    (hExc : ∀ p ∈ params, ∀ t, ∀ e : E, omega p t ≠ .excv e)
    (hSucc : ∀ p ∈ params, ∀ t, T ≤ t → ∃ r, omega p t = .ok r) :
    daskRunBatch true omega false true (T + 1) params ≠ none ∧
    (∀ l, daskRunBatch true omega false true (T + 1) params = some (.ok l) →
      l.map Prod.fst ~ params) ∧
    (∀ e, daskRunBatch true omega false true (T + 1) params ≠ some (.error e)) ∧
    (∀ (resolved : List P) (p : P),
      p ∈ findMissingParams params resolved → p ∉ resolved) := by
  have hbatch : daskRunBatch true omega false true (T + 1) params =
      daskRunAux omega false true params (T + 1) 0 params [] := rfl
  refine ⟨?_, ?_, ?_, ?_⟩
  · rw [hbatch]
    exact daskRunAux_some omega params T hSucc T 0 params []
      (fun p hp => hp) (by omega)
  · intro l h
    rw [hbatch] at h
    refine daskRunAux_complete omega params hExc (T + 1) 0 params [] ?_ ?_ l h
    · simp [findMissingParams]
    · simp
  · intro e h
    rw [hbatch] at h
    exact daskRunAux_no_raise omega params true (T + 1) 0 params [] e h
  · intro resolved p hp
    simp only [findMissingParams, List.mem_filter] at hp
    exact of_decide_eq_true hp.2

/-- C2 witness: batch [0, 1] where item 1 errors once and everything
succeeds from round 1: the theorem instantiated at T = 1 gives
termination, the permutation property for the concretely computed
result [(0, 3), (1, 4)], and disjointness of a resubmission. -/
theorem dask_C2_retry_witness :
    daskRunBatch true omegaW false true 2 [0, 1] ≠ none ∧
    List.map Prod.fst [((0 : ℕ), (3 : ℕ)), (1, 4)] ~ [0, 1] ∧
    (1 : ℕ) ∉ ([0] : List ℕ) := by
  have hExc : ∀ p ∈ [(0 : ℕ), 1], ∀ t, ∀ e : Unit, omegaW p t ≠ .excv e := by
    intro p hp t e
    simp only [omegaW]
    split
    · intro hc
      exact DOut.noConfusion hc
    · intro hc
      exact DOut.noConfusion hc
  have hSucc : ∀ p ∈ [(0 : ℕ), 1], ∀ t, 1 ≤ t → ∃ r, omegaW p t = .ok r := by
    intro p hp t ht
    refine ⟨p + 3, ?_⟩
    simp only [omegaW]
    rw [if_neg]
    intro hc
    omega
  have H := dask_C2_retry omegaW [0, 1] 1 hExc hSucc
  exact ⟨H.1, H.2.1 [(0, 3), (1, 4)] (by rfl), H.2.2.2 [0] 1 (by decide)⟩

/-- C2 counterexample: the claim as stated fails on the code.  With
retry enabled and hard_error off, a single item whose evaluation
returns an Exception object in round 0 and would succeed from round 1
on (omegaCx 0 1 = ok 5) is dropped without ever being resubmitted:
the run returns an empty result set even though the item eventually
succeeds, so the result is not a permutation of the batch. -/
theorem dask_C2_retry_counterexample :
    daskRunBatch true omegaCx false true 10 [0] = some (.ok []) ∧
    omegaCx 0 1 = .ok 5 ∧
    ¬ (List.map Prod.fst ([] : List (ℕ × ℕ)) ~ [0]) := by
  refine ⟨rfl, rfl, ?_⟩
  intro h
  have := h.length_eq
  simp at this

/-! ### Lemmas about the dict model and the orchestrator -/

theorem dictKeys_dictSet [DecidableEq K] (d : List (K × V)) (k : K) (v : V) :
    dictKeys (dictSet d k v) =
      if k ∈ dictKeys d then dictKeys d else dictKeys d ++ [k] := by
  unfold dictSet
  split
  · unfold dictKeys
    rw [List.map_map]
    apply List.map_congr_left
    intro kv _
    simp only [Function.comp_apply]
    split
    · rename_i hk
      rw [hk]
    · rfl
  · simp [dictKeys]

theorem mem_dictKeys_dictSet [DecidableEq K] (d : List (K × V)) (k : K)
    (v : V) (a : K) :
    a ∈ dictKeys (dictSet d k v) ↔ a ∈ dictKeys d ∨ a = k := by
  rw [dictKeys_dictSet]
  split
  · rename_i hmem
    constructor
    · exact Or.inl
    · rintro (h | rfl)
      · exact h
      · exact hmem
  · simp

theorem mem_dictKeys_dictUpdate [DecidableEq K] (u d : List (K × V)) (a : K) :
    a ∈ dictKeys (dictUpdate d u) ↔ a ∈ dictKeys d ∨ a ∈ dictKeys u := by
  induction u generalizing d with
  | nil => simp [dictUpdate, dictKeys]
  | cons kv u ih =>
    have hstep : dictUpdate d (kv :: u) = dictUpdate (dictSet d kv.1 kv.2) u := rfl
    rw [hstep, ih, mem_dictKeys_dictSet]
    simp only [dictKeys, List.map_cons, List.mem_cons]
    tauto

theorem dictKeys_dictStrip [DecidableEq K] (names : List K) :
    ∀ d : List (K × V), dictKeys (dictStrip names d) =
      (dictKeys d).filter (fun k => decide (k ∉ names)) := by
  intro d
  induction d with
  | nil => rfl
  | cons kv d ih =>
    simp only [dictStrip, dictKeys, List.filter_cons, List.map_cons] at ih ⊢
    split
    · simp only [List.map_cons]
      rw [ih]
    · exact ih

theorem mem_dictKeys_mkParameterSet [DecidableEq K] (pnames : List K)
    (fp : List V) (a : K) (h : a ∈ dictKeys (mkParameterSet pnames fp)) :
    a ∈ pnames := by
  unfold mkParameterSet at h
  rw [mem_dictKeys_dictUpdate] at h
  rcases h with h | h
  · simp [dictKeys] at h
  · rcases List.mem_map.mp h with ⟨⟨b, c⟩, hmem, rfl⟩
    exact (List.of_mem_zip hmem).1

/-- C5 (amended): on every wake of the worker-pool collection loop
the output queue is drained fully (the drain loop ends with the queue
empty and every entry accounted for as an (item, Some result) pair),
while the error queue yields AT MOST ONE entry per wake — recorded as
(item, None) under soft errors, or raised, aborting the run, under
hard_error — and the loop keeps running until the collected result
count reaches the batch size (it returns the collected list as soon
as the count is no longer below n).  (The claim's "both queues
drained fully" fails for the error queue: see the counterexample.) -/
theorem producer_C5_wake (P R E : Type) :
    (∀ (q : List (P × R)) (rl : List (P × Option R)),
      (drainOutQ q rl).2 = [] ∧
      (drainOutQ q rl).1 = rl ++ q.map (fun x => (x.1, some x.2))) ∧
    (∀ (hard : Bool) (qoutNow : List (P × R)) (rl : List (P × Option R)),
      producerWake (E := E) hard qoutNow [] rl =
        .ok { rl := rl ++ qoutNow.map (fun x => (x.1, some x.2)), qerr := [] }) ∧
    (∀ (qoutNow : List (P × R)) (e : P × E) (rest : List (P × E))
        (rl : List (P × Option R)),
      producerWake false qoutNow (e :: rest) rl =
        .ok { rl := rl ++ qoutNow.map (fun x => (x.1, some x.2)) ++ [(e.1, none)],
              qerr := rest }) ∧
    (∀ (qoutNow : List (P × R)) (e : P × E) (rest : List (P × E))
        (rl : List (P × Option R)),
      producerWake true qoutNow (e :: rest) rl = .error (.raised e.2)) ∧
    (∀ (hard : Bool) (outArr : ℕ → List (P × R)) (errArr : ℕ → List (P × E))
        (n f t : ℕ) (rl : List (P × Option R)) (qe : List (P × E)),
      n ≤ rl.length →
      producerRunAux hard outArr errArr n (f + 1) t rl qe = some (.ok rl)) := by
  refine ⟨?_, pwake_nil, pwake_cons_soft, pwake_cons_hard, ?_⟩
  · intro q rl
    rw [drainOutQ_eq]
    exact ⟨rfl, rfl⟩
  · intro hard outArr errArr n f t rl qe hlen
    rw [producerRunAux, if_pos hlen]

/-- C5 witness: the wake equations and the loop-exit rule evaluated
at concrete queues. -/
theorem producer_C5_wake_witness :
    (drainOutQ [((5 : ℕ), (7 : ℕ))] ([] : List (ℕ × Option ℕ))).2 = [] ∧
    (drainOutQ [((5 : ℕ), (7 : ℕ))] ([] : List (ℕ × Option ℕ))).1 =
      [] ++ [((5 : ℕ), (7 : ℕ))].map (fun x => (x.1, some x.2)) ∧
    (1 : ℕ) ≤ [((0 : ℕ), some (10 : ℕ))].length ∧
    producerRunAux false outArrW errArrW 1 1 1 [((0 : ℕ), some (10 : ℕ))]
      ([] : List (ℕ × Unit)) = some (.ok [((0 : ℕ), some (10 : ℕ))]) := by
  have H := producer_C5_wake ℕ ℕ Unit
  refine ⟨(H.1 [(5, 7)] []).1, (H.1 [(5, 7)] []).2, by decide, ?_⟩
  exact H.2.2.2.2 false outArrW errArrW 1 0 1 [(0, some 10)] [] (by decide)

/-- C5 counterexample: a wake that finds two entries on the error
queue removes only the first; the second is still parked when the
dispatcher sleeps, refuting "the error queue is drained fully
(every element present at that wake is removed) each wake". -/
theorem producer_C5_wake_counterexample :
    producerWake false ([] : List (ℕ × ℕ)) [((0 : ℕ), ()), (1, ())]
      ([] : List (ℕ × Option ℕ)) =
      .ok { rl := [(0, none)], qerr := [(1, ())] } ∧
    [((1 : ℕ), ())] ≠ ([] : List (ℕ × Unit)) :=
  ⟨rfl, by decide⟩

/-- C3 (amended): with hard_error=False and retry_failures=False,
only the worker-pool backend returns one entry per batch item — for a
batch of n items, each delivered exactly once on the output or error
queue by wake T, its run_batch terminates and returns a permutation
of the n outcomes in which every failed item appears as (item, None).
The sequential backend returns exactly the successful evaluations in
order (stSucc) and the distributed backend returns exactly the
successes of the single round it runs, so in both of those a failed
item is omitted rather than returned as (item, None). -/
theorem managers_C3_soft_mode (P R E α : Type) [DecidableEq P] [DecidableEq α]
    (outArr : ℕ → List (P × R)) (errArr : ℕ → List (P × E)) (T n : ℕ)
    (outs : List (P × R)) (errs : List (P × E))
    (houts : catFrom outArr 0 T = outs) (herrs : catFrom errArr 0 T = errs)
    (hquiet : ∀ u, T ≤ u → outArr u = [] ∧ errArr u = [])
    (hn : n = outs.length + errs.length)
    (evalO : α → ℕ → E ⊕ ℚ) (params : List α)
    (omega : P → ℕ → DOut R E) (batch : List P) :
    (producerRunBatch true false outArr errArr n (T + (n + 1)) ≠ none ∧
     ∀ l, producerRunBatch true false outArr errArr n (T + (n + 1)) =
         some (.ok l) →
       l ~ outs.map (fun x => (x.1, some x.2)) ++
           errs.map (fun x => (x.1, (none : Option R))) ∧
       l.length = n) ∧
    (stRunBatch true evalO false false (params.length + 1) params =
       some (.ok (stSucc evalO params 0)) ∧
     ∀ pr ∈ stSucc evalO params 0, ∃ a, evalO pr.1 a = .inr pr.2) ∧
    (∀ (f t : ℕ) (submitted : List P) (ret : List (P × R)),
      daskRunAux omega false false batch (f + 1) t submitted ret =
        some (.ok (ret ++ daskOkPairs omega t submitted)) ∧
      ∀ pr ∈ daskOkPairs omega t submitted, omega pr.1 t = .ok pr.2) := by
  have htl : (outs.map (fun x => (x.1, some x.2)) ++
      errs.map (fun x => (x.1, (none : Option R)))).length = n := by
    simp [hn]
  have hinv0 : PInv outArr errArr T
      (outs.map (fun x => (x.1, some x.2)) ++
        errs.map (fun x => (x.1, (none : Option R)))) 0 [] [] := by
    unfold PInv
    rw [houts, herrs]
    simp
  have hbatch : producerRunBatch true false outArr errArr n (T + (n + 1)) =
      producerRunAux false outArr errArr n (T + (n + 1)) 0 [] [] := rfl
  refine ⟨⟨?_, ?_⟩, ⟨?_, ?_⟩, ?_⟩
  · rw [hbatch]
    exact producerRunAux_some outArr errArr T n _ htl hquiet T 0 [] [] hinv0
      (by omega)
  · intro l h
    rw [hbatch] at h
    exact producerRunAux_ok_perm outArr errArr T n _ htl hquiet
      (T + (n + 1)) 0 [] [] l hinv0 h
  · exact stRunAux_noretry evalO params.length params 0 [] (by omega)
  · exact stSucc_mem evalO params params.length 0 (by omega)
  · intro f t submitted ret
    exact ⟨daskRunAux_noretry omega batch f t submitted ret,
      fun pr hpr => daskOkPairs_mem omega t submitted pr hpr⟩

/-- C3 witness: the producer part at a two-item batch (one success
arriving at wake 0, one error arriving at wake 0), the sequential
part at a one-item always-succeeding batch, the distributed part at
the two-item oracle used for C2. -/
theorem managers_C3_soft_mode_witness :
    producerRunBatch true false outArrW errArrW 2 (1 + 3) ≠ none ∧
    ([((0 : ℕ), some (10 : ℕ)), (1, none)] ~
      [((0 : ℕ), (10 : ℕ))].map (fun x => (x.1, some x.2)) ++
        [((1 : ℕ), ())].map (fun x => (x.1, (none : Option ℕ)))) ∧
    [((0 : ℕ), some (10 : ℕ)), (1, none)].length = 2 ∧
    stRunBatch true (fun (_ : ℕ) (_ : ℕ) => (Sum.inr 3 : Unit ⊕ ℚ))
      false false ([(0 : ℕ)].length + 1) [(0 : ℕ)] =
      some (.ok (stSucc (fun (_ : ℕ) (_ : ℕ) => (Sum.inr 3 : Unit ⊕ ℚ)) [(0 : ℕ)] 0)) ∧
    daskRunAux omegaW false false [0, 1] 1 0 [0, 1] [] =
      some (.ok ([] ++ daskOkPairs omegaW 0 [0, 1])) := by
  have H := managers_C3_soft_mode ℕ ℕ Unit ℕ outArrW errArrW 1 2
    [(0, 10)] [(1, ())] rfl rfl
    (fun u hu => ⟨by simp [outArrW, Nat.pos_iff_ne_zero.mp hu],
                  by simp [errArrW, Nat.pos_iff_ne_zero.mp hu]⟩)
    rfl (fun (_ : ℕ) (_ : ℕ) => (Sum.inr 3 : Unit ⊕ ℚ)) [(0 : ℕ)]
    omegaW [0, 1]
  have hres := H.1.2 [((0 : ℕ), some (10 : ℕ)), (1, none)] rfl
  exact ⟨H.1.1, hres.1, hres.2, H.2.1.1, (H.2.2 0 0 [0, 1] []).1⟩

/-- C3 counterexample: the sequential backend with one item whose
evaluation fails, hard_error=False, retry_failures=False, returns the
empty list — length 0 for a batch of size 1, with no (item, None)
entry — refuting "every backend's run_batch returns a result list of
length exactly N with failed items represented as (item, None)". -/
theorem managers_C3_soft_mode_counterexample :
    stRunBatch true (fun (_ : ℕ) (_ : ℕ) => (Sum.inl () : Unit ⊕ ℚ))
      false false 2 [(0 : ℕ)] = some (.ok []) ∧
    ([] : List (ℕ × ℚ)).length ≠ [(0 : ℕ)].length :=
  ⟨rfl, by decide⟩

/-- C6: for every batch, every (stripped_context, outcome) pair
returned by process_all_data has no fit-parameter key and no
auxiliary-process-parameter key in its context; the stripping removes
exactly the keys in parameter_names plus the auxiliary mapping's keys
(position i of the output keeps precisely the keys of position i of
the manager's output that are outside the strip set); and whenever
the manager returns items of the submitted batch, the remaining keys
all come from the instance contexts. -/
theorem orchestrator_C6_strip (K V W : Type) [DecidableEq K]
    (rb : List (List (K × V)) → List (List (K × V) × Option W))
    (pnames : List K) (transform : Option (List V → List K → List V))
    (fp : List V) (aux : List (K × V)) (insts : List (List (K × V)))
    (out : List (List (K × V) × Option W))
    (hout : processAllData rb pnames transform fp aux insts = .ok out) :
    (∀ cr ∈ out, ∀ k, k ∈ pnames ∨ k ∈ dictKeys aux → k ∉ dictKeys cr.1) ∧
    (∀ i : ℕ, dictKeys ((out.getD i ([], none)).1) =
      (dictKeys (((rb (mkBatch insts pnames
          (applyTransform transform fp pnames) aux)).getD i ([], none)).1)).filter
        (fun k => decide (k ∉ stripNames pnames aux))) ∧
    ((∀ pr ∈ rb (mkBatch insts pnames (applyTransform transform fp pnames) aux),
        pr.1 ∈ mkBatch insts pnames (applyTransform transform fp pnames) aux) →
      ∀ cr ∈ out, ∀ k ∈ dictKeys cr.1, k ∈ insts.flatMap dictKeys) := by
  unfold processAllData at hout
  split at hout
  case isFalse => exact Except.noConfusion hout
  case isTrue hlen =>
    injection hout with hout
    subst hout
    refine ⟨?_, ?_, ?_⟩
    · rintro cr hcr k hk hmem
      rcases List.mem_map.mp hcr with ⟨pr, hpr, rfl⟩
      rw [dictKeys_dictStrip] at hmem
      have hdec := (List.mem_filter.mp hmem).2
      have hnot := of_decide_eq_true hdec
      exact hnot (by
        unfold stripNames
        exact List.mem_append.mpr hk)
    · intro i
      rcases Nat.lt_or_ge i
          (rb (mkBatch insts pnames (applyTransform transform fp pnames) aux)).length
          with hi | hi
      · have hio : i < ((rb (mkBatch insts pnames
            (applyTransform transform fp pnames) aux)).map (fun pr =>
              (dictStrip (stripNames pnames aux) pr.1, pr.2))).length := by
          rw [List.length_map]
          exact hi
        rw [List.getD_eq_getElem _ _ hio, List.getD_eq_getElem _ _ hi,
          List.getElem_map]
        exact dictKeys_dictStrip (stripNames pnames aux) _
      · have hio : ((rb (mkBatch insts pnames
            (applyTransform transform fp pnames) aux)).map (fun pr =>
              (dictStrip (stripNames pnames aux) pr.1, pr.2))).length ≤ i := by
          rw [List.length_map]
          exact hi
        rw [List.getD_eq_default _ _ hio, List.getD_eq_default _ _ hi]
        rfl
    · intro hsub cr hcr k hk
      rcases List.mem_map.mp hcr with ⟨pr, hpr, rfl⟩
      rw [dictKeys_dictStrip] at hk
      obtain ⟨hk1, hdec⟩ := List.mem_filter.mp hk
      have hnames := of_decide_eq_true hdec
      have hnp : k ∉ pnames := fun hc =>
        hnames (by unfold stripNames; exact List.mem_append.mpr (Or.inl hc))
      have hna : k ∉ dictKeys aux := fun hc =>
        hnames (by unfold stripNames; exact List.mem_append.mpr (Or.inr hc))
      have hb := hsub pr hpr
      rcases List.mem_map.mp hb with ⟨inst, hinst, heq⟩
      rw [← heq] at hk1
      rw [mem_dictKeys_dictUpdate] at hk1
      rcases hk1 with hk1 | hk1
      · rw [mem_dictKeys_dictUpdate] at hk1
        rcases hk1 with hk1 | hk1
        · exact List.mem_flatMap.mpr ⟨inst, hinst, hk1⟩
        · exact absurd (mem_dictKeys_mkParameterSet _ _ _ hk1) hnp
      · exact absurd hk1 hna

/-- C6 witness: one instance {0: 5}, fit parameter name 1 bound to 9,
auxiliary parameter {2: 20}, identity-style manager: the stripped
context is {0: 5} — the fit key 1 and auxiliary key 2 are gone, the
instance key 0 survives. -/
theorem orchestrator_C6_strip_witness :
    processAllData (fun b => b.map (fun d => (d, some (0 : ℕ))))
      [(1 : ℕ)] none [(9 : ℕ)] [((2 : ℕ), (20 : ℕ))] [[((0 : ℕ), (5 : ℕ))]] =
      .ok [([((0 : ℕ), (5 : ℕ))], some 0)] ∧
    (1 : ℕ) ∉ dictKeys [((0 : ℕ), (5 : ℕ))] ∧
    (2 : ℕ) ∉ dictKeys [((0 : ℕ), (5 : ℕ))] ∧
    (0 : ℕ) ∈ [[((0 : ℕ), (5 : ℕ))]].flatMap dictKeys := by
  have hout : processAllData (fun b => b.map (fun d => (d, some (0 : ℕ))))
      [(1 : ℕ)] none [(9 : ℕ)] [((2 : ℕ), (20 : ℕ))] [[((0 : ℕ), (5 : ℕ))]] =
      .ok [([((0 : ℕ), (5 : ℕ))], some 0)] := rfl
  have H := orchestrator_C6_strip ℕ ℕ ℕ
    (fun b => b.map (fun d => (d, some (0 : ℕ))))
    [(1 : ℕ)] none [(9 : ℕ)] [((2 : ℕ), (20 : ℕ))] [[((0 : ℕ), (5 : ℕ))]]
    [([((0 : ℕ), (5 : ℕ))], some 0)] hout
  refine ⟨hout, ?_, ?_, ?_⟩
  · exact H.1 ([((0 : ℕ), (5 : ℕ))], some 0) (by decide) 1 (Or.inl (by decide))
  · exact H.1 ([((0 : ℕ), (5 : ℕ))], some 0) (by decide) 2 (Or.inr (by decide))
  · exact H.2.2 (by decide) ([((0 : ℕ), (5 : ℕ))], some 0) (by decide) 0 (by decide)

end Coep
